import Mathlib

/-!
Verification of the chunked file-transfer protocol implemented in
`src/lib/p2p.ts` (multi-client revision of the `P2PFileTransfer` class).

The embedding models:
* the framing (metadata / chunk / complete / progress_ack /
  transfer_complete_ack messages),
* the sender chunking loop (`sendFile`), its backpressure poll and its
  fan-out completion wait,
* the receiver reassembly state machine (`handleIncomingData`,
  `assembleFile`),
* the session registry (`connections`, `getConnectedClients`, `destroy`).

Files are byte lists; JavaScript sparse arrays are lists of `Option`;
wall-clock instants (`Date.now()`) are explicit `Nat` parameters;
JavaScript floating-point arithmetic on progress values is modelled
exactly over `ℚ`.
-/

namespace P2P

/-- File chunk size: 256KB (`const CHUNK_SIZE = 256 * 1024`). -/
def CHUNK_SIZE : Nat := 256 * 1024

/-- Backpressure high-water mark `MAX_BUFFERED_AMOUNT = 16 * 1024 * 1024` (16MB limit). -/
def MAX_BUFFERED_AMOUNT : Nat := 16 * 1024 * 1024

/-- The record `interface FileMetadata`: name, size, MIME type, total chunk count. -/
structure FileMetadata where
  name : String
  size : Nat
  type : String
  totalChunks : Nat
deriving DecidableEq, Repr

/-- The record `interface TransferProgress`.  `transferred` and `total` are byte
counts; `percentage` and `speed` are JS numbers, modelled over `ℚ`. -/
structure TransferProgress where
  transferred : Nat
  total : Nat
  percentage : ℚ
  speed : ℚ
deriving DecidableEq, Repr

/-- A source `File`: its name, MIME type and content bytes.
`file.size` in the source is `(bytes).length` here. -/
structure FileData where
  name : String
  type : String
  bytes : List Nat
deriving DecidableEq, Repr

/-- The protocol messages exchanged over a data connection, discriminated
by the `type` tag of the JS object sent through `connection.send`. -/
inductive Message where
  | metadata (data : FileMetadata)
  | chunk (index : Nat) (data : List Nat)
  | complete
  | progressAck (transferred : Nat)
  | completeAck
deriving DecidableEq, Repr

/-- Connection status union (`type ConnectionStatus`). -/
inductive ConnectionStatus where
  | idle
  | connecting
  | connected
  | transferring
  | completed
  | error
deriving DecidableEq, Repr

/-- One entry of the sender `connections` map (`interface ClientInfo`).
`connOpen` models `connection.open`; `hasResolve` models whether the
`completionResolve` one-shot of the current `sendFile` call is installed,
and `resolved` whether it has been fulfilled. -/
structure ClientInfo where
  id : String
  connOpen : Bool
  progress : TransferProgress
  startTime : Nat
  hasResolve : Bool
  resolved : Bool
deriving DecidableEq, Repr

/-- The mutable state of a `P2PFileTransfer` instance (both roles share
one class, so one state carries the registry and the reassembly state). -/
structure TState where
  connections : List ClientInfo
  receivedChunks : List (Option (List Nat))
  fileMetadata : Option FileMetadata
  receivedChunkCount : Nat
  receiveStartTime : Nat
  lastProgressUpdate : Nat
  pendingFile : Option FileData
  overallStatus : ConnectionStatus
deriving DecidableEq, Repr

/-- Observable effects of a handler step: callback invocations and
messages written to a connection. -/
inductive Event where
  | statusChange (s : ConnectionStatus)
  | progressChange (clientId : String) (p : TransferProgress)
  | fileReceived (name : String) (mime : String) (bytes : List Nat)
  | sent (toPeer : String) (msg : Message)
deriving DecidableEq, Repr

/-- Lookup `this.connections.get(peerId)` (keys of the map are the `id` fields). -/
def lookupClient (conns : List ClientInfo) (id : String) : Option ClientInfo :=
  conns.find? (fun c => c.id == id)

/-- In-place mutation of the client stored under `id` in the map. -/
def updateClient (conns : List ClientInfo) (id : String) (c' : ClientInfo) :
    List ClientInfo :=
  conns.map (fun c => if c.id == id then c' else c)

/-- JS sparse-array element assignment `a[i] = v`: positions between the
old length and `i` become holes, and the length grows to `i + 1` when
`i` is out of range. -/
def jsSet (a : List (Option α)) (i : Nat) (v : α) : List (Option α) :=
  if i < a.length then a.set i (some v)
  else a ++ List.replicate (i - a.length) none ++ [some v]

/-- Bytes a JS `Blob` contributes for one array slot: an `ArrayBuffer`
contributes its bytes, a hole reads as `undefined` and is stringified. -/
def blobPart : Option (List Nat) → List Nat
  | some bs => bs
  | none => [117, 110, 100, 101, 102, 105, 110, 101, 100]

/-- The `assembleFile` routine: on a null `fileMetadata` it returns immediately;
otherwise it concatenates `receivedChunks` in index order into a file,
fires `onFileReceived`, reports status `completed` and clears the
reassembly state. -/
def assembleFile (st : TState) : TState × List Event :=
  match st.fileMetadata with
  | none => (st, [])
  | some md =>
      ({ st with
          receivedChunks := []
          fileMetadata := none
          receivedChunkCount := 0
          overallStatus := .completed },
        [Event.fileReceived md.name md.type ((st.receivedChunks.map blobPart).flatten),
         Event.statusChange .completed])

/-- One step of `handleIncomingData(data, peerId)`, at wall-clock instant
`now` (`Date.now()`).  Returns the successor state and the emitted
events, in emission order. -/
def handleIncomingData (st : TState) (peerId : String) (msg : Message)
    (now : Nat) : TState × List Event :=
  match msg with
  | .metadata md =>
      ({ st with
          fileMetadata := some md
          receivedChunks := []
          receivedChunkCount := 0
          receiveStartTime := now
          overallStatus := .transferring },
        [Event.statusChange .transferring])
  | .chunk index payload =>
      let st₁ := { st with
          receivedChunks := jsSet st.receivedChunks index payload
          receivedChunkCount := st.receivedChunkCount + 1 }
      match st.fileMetadata with
      | some md =>
          let transferred := st₁.receivedChunkCount * CHUNK_SIZE
          let elapsed : ℚ := ((now - st₁.receiveStartTime : Nat) : ℚ) / 1000
          let speed : ℚ := if 0 < elapsed then (transferred : ℚ) / elapsed else 0
          let progress : TransferProgress :=
            { transferred := min transferred md.size
              total := md.size
              percentage := ((st₁.receivedChunkCount : ℚ) / (md.totalChunks : ℚ)) * 100
              speed := speed }
          let throttleOpen : Bool :=
            decide (50 < now - st₁.lastProgressUpdate) ||
            decide (st₁.receivedChunkCount = md.totalChunks)
          let st₂ := if throttleOpen then { st₁ with lastProgressUpdate := now } else st₁
          let progressEvents :=
            if throttleOpen then [Event.progressChange "" progress] else []
          let ackEvents :=
            if st₁.receivedChunkCount % 4 = 0 then
              match lookupClient st₁.connections peerId with
              | some sender =>
                  if sender.connOpen then
                    [Event.sent peerId (Message.progressAck progress.transferred)]
                  else []
              | none => []
            else []
          (st₂, progressEvents ++ ackEvents)
      | none => (st₁, [])
  | .complete =>
      let (st₁, evs) := assembleFile st
      let ackEvents :=
        match lookupClient st₁.connections peerId with
        | some sender =>
            if sender.connOpen then [Event.sent peerId Message.completeAck] else []
        | none => []
      (st₁, evs ++ ackEvents)
  | .progressAck transferred =>
      match lookupClient st.connections peerId with
      | some client =>
          let elapsed : ℚ := ((now - client.startTime : Nat) : ℚ) / 1000
          let speed : ℚ := if 0 < elapsed then (transferred : ℚ) / elapsed else 0
          let client' := { client with
              progress := { client.progress with
                  transferred := transferred
                  speed := speed
                  percentage :=
                    ((transferred : ℚ) / (client.progress.total : ℚ)) * 100 } }
          ({ st with connections := updateClient st.connections peerId client' },
            [Event.progressChange client'.id client'.progress])
      | none => (st, [])
  | .completeAck =>
      match lookupClient st.connections peerId with
      | some client =>
          if client.hasResolve then
            let client' := { client with
                progress := { client.progress with
                    transferred := client.progress.total
                    percentage := 100 }
                resolved := true }
            ({ st with connections := updateClient st.connections peerId client' },
              [Event.progressChange client'.id client'.progress])
          else (st, [])
      | none => (st, [])

/-- Fold `handleIncomingData` over a list of `(peerId, message, now)`
arrival records, accumulating events in order. -/
def processTrace (st : TState) : List (String × Message × Nat) → TState × List Event
  | [] => (st, [])
  | (p, m, t) :: rest =>
      let (st₁, evs₁) := handleIncomingData st p m t
      let (st₂, evs₂) := processTrace st₁ rest
      (st₂, evs₁ ++ evs₂)

/-- The files delivered through `onFileReceived`, in emission order. -/
def filesReceived (evs : List Event) : List (String × String × List Nat) :=
  evs.filterMap (fun e =>
    match e with
    | .fileReceived n m b => some (n, m, b)
    | _ => none)

/-- The field initializers of a fresh `P2PFileTransfer` instance. -/
def initialState : TState :=
  { connections := []
    receivedChunks := []
    fileMetadata := none
    receivedChunkCount := 0
    receiveStartTime := 0
    lastProgressUpdate := 0
    pendingFile := none
    overallStatus := .idle }

/-- Ceiling division `Math.ceil(size / C)` over the naturals, the `totalChunks` the sender
computes for a file of `size` bytes and chunk size `C`. -/
def totalChunksOf (size C : Nat) : Nat := (size + C - 1) / C

/-- The `FileMetadata` record `sendFile` builds for a file. -/
def metadataFor (file : FileData) (C : Nat) : FileMetadata :=
  { name := file.name
    size := file.bytes.length
    type := file.type
    totalChunks := totalChunksOf file.bytes.length C }

/-- The chunk-emission part of the `sendFile` loop `while (offset < file.size)`:
loop: slice `file.slice(offset, offset + CHUNK_SIZE)`, emit it as a
`chunk` message carrying `chunkIndex`, advance `offset` by the chunk size
and repeat.  The source runs the loop with the positive constant
`CHUNK_SIZE`; positivity of `C` is part of the guard here so that the
recursion is well-founded for an arbitrary chunk-size parameter. -/
def sendChunksAux (bytes : List Nat) (C : Nat) (offset chunkIndex : Nat) :
    List (Nat × List Nat) :=
  if h : offset < bytes.length ∧ 0 < C then
    (chunkIndex, (bytes.drop offset).take C) ::
      sendChunksAux bytes C (offset + C) (chunkIndex + 1)
  else []
termination_by bytes.length - offset
decreasing_by omega

/-- The indexed chunk payloads `sendFile` emits for the bytes of a file. -/
def sendChunks (bytes : List Nat) (C : Nat) : List (Nat × List Nat) :=
  sendChunksAux bytes C 0 0

/-- Result of the synchronous prefix of `sendFile`. -/
inductive SendFileOutcome where
  | error (msg : String)
  | silentReturn
  | started (targetIds : List String)
deriving DecidableEq, Repr

/-- Target resolution of `sendFile`: a caller-specified subset keeps only
the ids found in the registry (`.filter(c => c !== undefined)`), a
missing subset selects every registered session. -/
def resolveTargets (conns : List ClientInfo) :
    Option (List String) → List ClientInfo
  | some ids => ids.filterMap (fun id => lookupClient conns id)
  | none => conns

/-- The synchronous prefix of `sendFile`: resolve the target set; when it
is empty either record the file as pending and throw (broadcast case) or
return silently (explicit-subset case); otherwise start transferring. -/
def sendFileStart (st : TState) (file : FileData)
    (targetClientIds : Option (List String)) : TState × SendFileOutcome :=
  let targets := resolveTargets st.connections targetClientIds
  if targets.length = 0 then
    match targetClientIds with
    | none =>
        ({ st with pendingFile := some file },
          .error "No active connections. File will be sent when clients connect.")
    | some _ => (st, .silentReturn)
  else
    ({ st with overallStatus := .transferring },
      .started (targets.map (·.id)))

/-- Arming step: `sendFile` installs a fresh completion one-shot on every target
(`client.completionResolve = resolve` inside a new `Promise`). -/
def armTargets (conns : List ClientInfo) (ids : List String) : List ClientInfo :=
  conns.map (fun c =>
    if ids.contains c.id then { c with hasResolve := true, resolved := false }
    else c)

/-- Whether the completion one-shot of a target has been fulfilled. -/
def clientResolved (conns : List ClientInfo) (id : String) : Bool :=
  match lookupClient conns id with
  | some c => c.resolved
  | none => false

/-- Fan-out resolution: `await Promise.all(completionPromises)` resolves exactly when every
targeted client has had its completion one-shot fulfilled. -/
def sendFileResolved (conns : List ClientInfo) (targetIds : List String) : Bool :=
  targetIds.all (fun id => clientResolved conns id)

/-- The backpressure check at the head of each chunk-loop iteration:
sending is allowed iff no open target has an available `dataChannel`
whose `bufferedAmount` exceeds `MAX_BUFFERED_AMOUNT` (a missing
`dataChannel`, `none`, never blocks — the source tests `dc &&`). -/
def canSendStep (targets : List ClientInfo) (r : String → Option Nat) : Bool :=
  targets.all (fun c =>
    !c.connOpen ||
      match r c.id with
      | some b => decide (b ≤ MAX_BUFFERED_AMOUNT)
      | none => true)

/-- Observable actions of the chunk loop. -/
inductive ChunkAction where
  | sleep (ms : Nat)
  | send (index : Nat) (payload : List Nat) (targets : List String)
deriving DecidableEq, Repr

/-- The `while (offset < file.size)` loop of `sendFile`, driven by the
sequence of `bufferedAmount` readings it observes, one reading per
iteration (an exhausted reading list leaves the loop pending).  A blocked
iteration sleeps 5 ms and re-polls without sending; an unblocked one
sends the next slice to every open target in lock-step. -/
def chunkLoop (bytes : List Nat) (C : Nat) (targets : List ClientInfo) :
    List (String → Option Nat) → Nat → Nat → List ChunkAction
  | [], _, _ => []
  | r :: rs, offset, chunkIndex =>
      if offset < bytes.length then
        if canSendStep targets r then
          ChunkAction.send chunkIndex ((bytes.drop offset).take C)
              ((targets.filter (·.connOpen)).map (·.id)) ::
            chunkLoop bytes C targets rs (offset + C) (chunkIndex + 1)
        else
          ChunkAction.sleep 5 :: chunkLoop bytes C targets rs offset chunkIndex
      else []

/-- Registry snapshot `getConnectedClients()`: the values of the `connections` map. -/
def getConnectedClients (st : TState) : List ClientInfo := st.connections

/-- Cleanup `destroy()`: close and drop every connection and clear the pending
file. -/
def destroy (st : TState) : TState :=
  { st with connections := [], pendingFile := none }

/-! ### Helper lemmas: JS sparse-array assignment -/

theorem jsSet_length (a : List (Option α)) (i : Nat) (v : α) :
    (jsSet a i v).length = max a.length (i + 1) := by
  unfold jsSet
  split
  · simp; omega
  · simp; omega

theorem jsSet_getD (a : List (Option α)) (i : Nat) (v : α) (j : Nat) :
    (jsSet a i v).getD j none = if j = i then some v else a.getD j none := by
  unfold jsSet
  split
  · rename_i hlt
    by_cases hji : j = i
    · subst hji
      simp [List.getD_eq_getElem?_getD, List.getElem?_set_self hlt]
    · simp [List.getD_eq_getElem?_getD, List.getElem?_set_ne (fun h => hji h.symm), hji]
  · rename_i hge
    have hle : a.length ≤ i := Nat.le_of_not_lt hge
    simp only [List.getD_eq_getElem?_getD, List.append_assoc]
    by_cases hja : j < a.length
    · have hji : j ≠ i := by omega
      rw [List.getElem?_append_left hja]
      simp [hji]
    · have haj : a[j]? = none := List.getElem?_eq_none (Nat.le_of_not_lt hja)
      by_cases hji : j = i
      · subst hji
        rw [List.getElem?_append_right (by omega),
          List.getElem?_append_right (by simp)]
        simp
      · by_cases hjm : j < i
        · rw [List.getElem?_append_right (by omega),
            List.getElem?_append_left (by simp; omega)]
          simp [hji, haj, Nat.sub_lt_sub_right (Nat.le_of_not_lt hja) (by omega : j < i), haj]
        · rw [List.getElem?_eq_none (by simp; omega)]
          simp [hji, haj]

theorem foldl_jsSet_getD_notmem (l : List (Nat × List Nat)) (a : List (Option (List Nat)))
    (j : Nat) (hj : j ∉ l.map Prod.fst) :
    (l.foldl (fun acc p => jsSet acc p.1 p.2) a).getD j none = a.getD j none := by
  induction l generalizing a with
  | nil => rfl
  | cons p rest ih =>
      simp only [List.map_cons, List.mem_cons, not_or] at hj
      simp only [List.foldl_cons]
      rw [ih _ hj.2, jsSet_getD, if_neg hj.1]

theorem foldl_jsSet_getD_mem (l : List (Nat × List Nat)) (a : List (Option (List Nat)))
    (j : Nat) (v : List Nat) (hnd : (l.map Prod.fst).Nodup) (hmem : (j, v) ∈ l) :
    (l.foldl (fun acc p => jsSet acc p.1 p.2) a).getD j none = some v := by
  induction l generalizing a with
  | nil => cases hmem
  | cons p rest ih =>
      simp only [List.map_cons, List.nodup_cons] at hnd
      simp only [List.foldl_cons]
      rcases List.mem_cons.mp hmem with h | h
      · subst h
        have : j ∉ rest.map Prod.fst := hnd.1
        rw [foldl_jsSet_getD_notmem _ _ _ this, jsSet_getD, if_pos rfl]
      · exact ih _ hnd.2 h

theorem foldl_jsSet_length (l : List (Nat × List Nat)) (a : List (Option (List Nat))) :
    (l.foldl (fun acc p => jsSet acc p.1 p.2) a).length =
      l.foldl (fun n p => max n (p.1 + 1)) a.length := by
  induction l generalizing a with
  | nil => rfl
  | cons p rest ih => simp only [List.foldl_cons]; rw [ih, jsSet_length]

theorem foldl_max_range (n k : Nat) :
    (List.range n).foldl (fun m i => max m (i + 1)) k = max k n := by
  induction n generalizing k with
  | zero => simp
  | succ n ih => rw [List.range_succ, List.foldl_append, ih]; simp; omega

/-! ### Helper lemmas: chunk slicing and concatenation -/

theorem take_add_split (l : List α) (m n : Nat) :
    l.take (m + n) = l.take m ++ (l.drop m).take n := by
  induction m generalizing l with
  | zero => simp
  | succ m ih =>
      cases l with
      | nil => simp
      | cons x xs => simp [Nat.succ_add, ih]

theorem flatten_range_chunks (bytes : List Nat) (C : Nat) (n : Nat) :
    ((List.range n).map (fun i => (bytes.drop (i * C)).take C)).flatten =
      bytes.take (n * C) := by
  induction n with
  | zero => simp
  | succ n ih =>
      rw [List.range_succ, List.map_append, List.flatten_append, ih]
      simp only [List.map_cons, List.map_nil, List.flatten_cons, List.flatten_nil,
        List.append_nil]
      rw [← take_add_split, Nat.succ_mul]

theorem lt_totalChunks_iff (len C k : Nat) (hC : 0 < C) :
    k < totalChunksOf len C ↔ k * C < len := by
  unfold totalChunksOf
  rw [Nat.lt_iff_add_one_le, Nat.le_div_iff_mul_le hC, Nat.add_mul, Nat.one_mul]
  omega

theorem length_le_totalChunks_mul (len C : Nat) (hC : 0 < C) :
    len ≤ totalChunksOf len C * C := by
  by_contra h
  have := (lt_totalChunks_iff len C (totalChunksOf len C) hC).mpr (by omega)
  omega

/-! ### Helper lemmas: the sender chunk loop in closed form -/

theorem sendChunksAux_eq_range (bytes : List Nat) (C : Nat) (hC : 0 < C) (k : Nat) :
    sendChunksAux bytes C (k * C) k =
      (List.range' k (totalChunksOf bytes.length C - k)).map
        (fun i => (i, (bytes.drop (i * C)).take C)) := by
  generalize hn : totalChunksOf bytes.length C - k = n
  induction n generalizing k with
  | zero =>
      have hk : ¬ k * C < bytes.length := by
        rw [← lt_totalChunks_iff _ _ _ hC]; omega
      rw [sendChunksAux]
      simp [hk]
  | succ n ih =>
      have hk : k * C < bytes.length := by
        rw [← lt_totalChunks_iff _ _ _ hC]; omega
      rw [sendChunksAux]
      rw [dif_pos ⟨hk, hC⟩]
      have hstep : k * C + C = (k + 1) * C := by ring
      rw [hstep, ih (k + 1) (by omega), List.range'_succ]
      simp

theorem sendChunks_eq_range (bytes : List Nat) (C : Nat) (hC : 0 < C) :
    sendChunks bytes C =
      (List.range (totalChunksOf bytes.length C)).map
        (fun i => (i, (bytes.drop (i * C)).take C)) := by
  have := sendChunksAux_eq_range bytes C hC 0
  simpa [sendChunks, List.range_eq_range'] using this

/-! ### Helper lemmas: the receiver event stream -/

@[simp] theorem filesReceived_nil : filesReceived [] = [] := rfl

@[simp] theorem filesReceived_cons_status (s : ConnectionStatus) (evs : List Event) :
    filesReceived (Event.statusChange s :: evs) = filesReceived evs := rfl

@[simp] theorem filesReceived_cons_progress (c : String) (p : TransferProgress)
    (evs : List Event) :
    filesReceived (Event.progressChange c p :: evs) = filesReceived evs := rfl

@[simp] theorem filesReceived_cons_sent (q : String) (m : Message) (evs : List Event) :
    filesReceived (Event.sent q m :: evs) = filesReceived evs := rfl

@[simp] theorem filesReceived_cons_file (n m : String) (b : List Nat) (evs : List Event) :
    filesReceived (Event.fileReceived n m b :: evs) = (n, m, b) :: filesReceived evs := rfl

@[simp] theorem filesReceived_append (a b : List Event) :
    filesReceived (a ++ b) = filesReceived a ++ filesReceived b :=
  List.filterMap_append a b _

theorem processTrace_append (st : TState) (a b : List (String × Message × Nat)) :
    processTrace st (a ++ b) =
      ((processTrace (processTrace st a).1 b).1,
        (processTrace st a).2 ++ (processTrace (processTrace st a).1 b).2) := by
  induction a generalizing st with
  | nil => simp [processTrace]
  | cons e rest ih =>
      obtain ⟨p, m, t⟩ := e
      simp only [List.cons_append, processTrace, List.append_eq]
      rw [ih]
      simp

/-- A `chunk` message only updates the chunk table, the received count
and the throttling clock; it never changes the metadata, the registry,
or emits a file. -/
theorem handleIncomingData_chunk (st : TState) (peer : String) (i : Nat)
    (d : List Nat) (now : Nat) :
    (handleIncomingData st peer (.chunk i d) now).1.fileMetadata = st.fileMetadata ∧
    (handleIncomingData st peer (.chunk i d) now).1.receivedChunks =
      jsSet st.receivedChunks i d ∧
    (handleIncomingData st peer (.chunk i d) now).1.receivedChunkCount =
      st.receivedChunkCount + 1 ∧
    (handleIncomingData st peer (.chunk i d) now).1.connections = st.connections ∧
    filesReceived (handleIncomingData st peer (.chunk i d) now).2 = [] := by
  rcases hmd : st.fileMetadata with _ | md
  · simp [handleIncomingData, hmd]
  · simp only [handleIncomingData, hmd]
    refine ⟨?_, ?_, ?_, ?_, ?_⟩ <;>
      (repeat' split) <;> simp

/-- Processing a list of `chunk` messages folds `jsSet` over their
`(index, payload)` pairs, preserves the metadata and emits no file. -/
theorem processTrace_chunks (trace : List (String × Message × Nat))
    (l : List (Nat × List Nat)) (st : TState)
    (h : trace.map (fun e => e.2.1) = l.map (fun p => Message.chunk p.1 p.2)) :
    (processTrace st trace).1.fileMetadata = st.fileMetadata ∧
    (processTrace st trace).1.receivedChunks =
      l.foldl (fun acc p => jsSet acc p.1 p.2) st.receivedChunks ∧
    (processTrace st trace).1.receivedChunkCount =
      st.receivedChunkCount + l.length ∧
    filesReceived (processTrace st trace).2 = [] := by
  induction trace generalizing l st with
  | nil =>
      cases l with
      | nil => simp [processTrace, filesReceived]
      | cons q l' => simp at h
  | cons e rest ih =>
      obtain ⟨p, m, t⟩ := e
      cases l with
      | nil => simp at h
      | cons q l' =>
          simp only [List.map_cons, List.cons.injEq] at h
          obtain ⟨hm, hrest⟩ := h
          subst hm
          obtain ⟨h1, h2, h3, _, h5⟩ :=
            handleIncomingData_chunk st p q.1 q.2 t
          obtain ⟨g1, g2, g3, g5⟩ :=
            ih l' (handleIncomingData st p (.chunk q.1 q.2) t).1 hrest
          simp only [processTrace]
          refine ⟨?_, ?_, ?_, ?_⟩
          · rw [g1, h1]
          · rw [g2, h2]
            simp [List.foldl_cons]
          · rw [g3, h3]
            simp [List.length_cons]
            omega
          · rw [filesReceived_append, h5, g5]
            rfl

/-- Folding JS array assignments of a permutation of the dense index
family `(i, payload i), i < tc` over the empty table yields the dense
table holding `payload i` at every index `i < tc`, independently of the
arrival order. -/
theorem foldl_jsSet_perm_range (l : List (Nat × List Nat)) (tc : Nat)
    (payload : Nat → List Nat)
    (hl : l.Perm ((List.range tc).map (fun i => (i, payload i)))) :
    l.foldl (fun acc p => jsSet acc p.1 p.2) [] =
      (List.range tc).map (fun i => some (payload i)) := by
  have hfst : (l.map Prod.fst).Perm (List.range tc) := by
    have h := hl.map Prod.fst
    simpa [List.map_map, Function.comp_def] using h
  have hnd : (l.map Prod.fst).Nodup :=
    hfst.nodup_iff.mpr (List.nodup_range _)
  have hlen : (l.foldl (fun acc p => jsSet acc p.1 p.2)
      ([] : List (Option (List Nat)))).length = tc := by
    rw [foldl_jsSet_length]
    have hmap : l.foldl (fun n p => max n (p.1 + 1)) 0 =
        (l.map Prod.fst).foldl (fun n i => max n (i + 1)) 0 :=
      (List.foldl_map Prod.fst (fun n i => max n (i + 1)) l 0).symm
    have hcomm : ∀ x ∈ l.map Prod.fst, ∀ y ∈ l.map Prod.fst, ∀ z : Nat,
        max (max z (x + 1)) (y + 1) = max (max z (y + 1)) (x + 1) := by
      intro x _ y _ z; omega
    simp only [List.length_nil]
    rw [hmap, hfst.foldl_eq' hcomm, foldl_max_range]
    simp
  apply List.ext_getElem?
  intro j
  by_cases hj : j < tc
  · have hmem : (j, payload j) ∈ l := by
      rw [hl.mem_iff]
      simp only [List.mem_map, List.mem_range]
      exact ⟨j, hj, rfl⟩
    have hgd := foldl_jsSet_getD_mem l [] j (payload j) hnd hmem
    have hjlen : j < (l.foldl (fun acc p => jsSet acc p.1 p.2)
        ([] : List (Option (List Nat)))).length := by omega
    rw [List.getD_eq_getElem?_getD, List.getElem?_eq_getElem hjlen] at hgd
    simp only [Option.getD_some] at hgd
    rw [List.getElem?_eq_getElem hjlen, hgd]
    simp [List.getElem?_map, hj]
  · rw [List.getElem?_eq_none (by omega), List.getElem?_eq_none (by simp; omega)]

@[simp] theorem blobPart_some (bs : List Nat) : blobPart (some bs) = bs := rfl

/-- A `complete` message with metadata present emits exactly the file
assembled by concatenating the chunk table in index order. -/
theorem handleIncomingData_complete_some (st : TState) (peer : String) (now : Nat)
    (md : FileMetadata) (hmd : st.fileMetadata = some md) :
    filesReceived (handleIncomingData st peer .complete now).2 =
      [(md.name, md.type, (st.receivedChunks.map blobPart).flatten)] := by
  simp only [handleIncomingData, assembleFile, hmd]
  (repeat' split) <;> simp

/-! ### C1: out-of-order chunk delivery reassembles a byte-identical file -/

/-- C1. For every file, every chunk size `C > 0` and every arrival
order (permutation) of the chunk messages delivered before the `complete`
message, the receiver reassembles a byte-identical copy of the original
file, because each chunk payload is placed at its `index` field rather
than at its arrival position. -/
theorem C1_reassembly_out_of_order (st : TState) (file : FileData) (C : Nat)
    (hC : 0 < C) (l : List (Nat × List Nat))
    (hl : l.Perm (sendChunks file.bytes C))
    (trace : List (String × Message × Nat))
    (htrace : trace.map (fun e => e.2.1) = l.map (fun p => Message.chunk p.1 p.2))
    (p0 p1 : String) (t0 t1 : Nat) :
    filesReceived (processTrace st
        ((p0, .metadata (metadataFor file C), t0) ::
          (trace ++ [(p1, .complete, t1)]))).2 =
      [(file.name, file.type, file.bytes)] := by
  simp only [processTrace]
  rw [processTrace_append]
  obtain ⟨h1, h2, h3, h5⟩ := processTrace_chunks trace l
    (handleIncomingData st p0 (.metadata (metadataFor file C)) t0).1 htrace
  have hmd2 : (processTrace (handleIncomingData st p0
      (.metadata (metadataFor file C)) t0).1 trace).1.fileMetadata =
      some (metadataFor file C) := by rw [h1]; rfl
  have hrc2 : (processTrace (handleIncomingData st p0
      (.metadata (metadataFor file C)) t0).1 trace).1.receivedChunks =
      l.foldl (fun acc p => jsSet acc p.1 p.2) [] := by rw [h2]; rfl
  have hperm : l.Perm ((List.range (totalChunksOf file.bytes.length C)).map
      (fun i => (i, (file.bytes.drop (i * C)).take C))) := by
    rw [← sendChunks_eq_range _ _ hC]; exact hl
  have hbytes : (((processTrace (handleIncomingData st p0
      (.metadata (metadataFor file C)) t0).1 trace).1.receivedChunks.map blobPart).flatten)
      = file.bytes := by
    rw [hrc2, foldl_jsSet_perm_range l (totalChunksOf file.bytes.length C)
      (fun i => (file.bytes.drop (i * C)).take C) hperm]
    simp only [List.map_map, Function.comp_def, blobPart_some]
    rw [flatten_range_chunks,
      List.take_of_length_le (length_le_totalChunks_mul _ _ hC)]
  have hcomplete := handleIncomingData_complete_some
    (processTrace (handleIncomingData st p0
      (.metadata (metadataFor file C)) t0).1 trace).1 p1 t1 _ hmd2
  simp only [processTrace, filesReceived_append, h5, hcomplete, hbytes]
  simp [handleIncomingData, metadataFor]

/-- Witness for C1: a 5-byte file in chunks of 2 (`totalChunks = 3`),
delivered in arrival order `[2, 0, 1]`, reassembles byte-identically. -/
theorem C1_reassembly_out_of_order_witness :
    (0 < 2 ∧
      [(2, [5]), (0, [1, 2]), (1, [3, 4])].Perm
        (sendChunks (FileData.mk "f" "t" [1, 2, 3, 4, 5]).bytes 2)) ∧
    filesReceived (processTrace initialState
        (("s", .metadata (metadataFor ⟨"f", "t", [1, 2, 3, 4, 5]⟩ 2), 0) ::
          ([("s", .chunk 2 [5], 1), ("s", .chunk 0 [1, 2], 2),
            ("s", .chunk 1 [3, 4], 3)] ++ [("s", .complete, 4)]))).2 =
      [("f", "t", [1, 2, 3, 4, 5])] := by
  have hs : sendChunks (FileData.mk "f" "t" [1, 2, 3, 4, 5]).bytes 2 =
      [(0, [1, 2]), (1, [3, 4]), (2, [5])] := by
    rw [sendChunks_eq_range _ _ (by decide)]
    decide
  have hperm : [(2, [5]), (0, [1, 2]), (1, [3, 4])].Perm
      (sendChunks (FileData.mk "f" "t" [1, 2, 3, 4, 5]).bytes 2) := by
    rw [hs]; decide
  exact ⟨⟨by decide, hperm⟩,
    C1_reassembly_out_of_order initialState ⟨"f", "t", [1, 2, 3, 4, 5]⟩ 2 (by decide)
      [(2, [5]), (0, [1, 2]), (1, [3, 4])] hperm
      [("s", .chunk 2 [5], 1), ("s", .chunk 0 [1, 2], 2), ("s", .chunk 1 [3, 4], 3)]
      (by decide) "s" "s" 0 4⟩

/-! ### C3: chunk count, dense indices and payload lengths -/

/-- C3. The sender computes `totalChunks = ceil(size / C)`, emits
exactly `totalChunks` chunk messages with dense zero-based indices, and
every chunk payload has length `C` except the last, whose length is
`size mod C` (or `C` when the size is an exact multiple of `C`). -/
theorem C3_chunk_count_and_sizes (bytes : List Nat) (C : Nat) (hC : 0 < C) :
    (sendChunks bytes C).length = totalChunksOf bytes.length C ∧
    (sendChunks bytes C).map Prod.fst =
      List.range (totalChunksOf bytes.length C) ∧
    ∀ p ∈ sendChunks bytes C,
      p.2.length =
        if p.1 + 1 = totalChunksOf bytes.length C then
          (if bytes.length % C = 0 then C else bytes.length % C)
        else C := by
  rw [sendChunks_eq_range _ _ hC]
  refine ⟨by simp, by simp [List.map_map, Function.comp_def], ?_⟩
  intro p hp
  simp only [List.mem_map, List.mem_range] at hp
  obtain ⟨i, hi, rfl⟩ := hp
  simp only [List.length_take, List.length_drop]
  have h1 : i * C < bytes.length := (lt_totalChunks_iff _ _ _ hC).mp hi
  by_cases hlast : i + 1 = totalChunksOf bytes.length C
  · have h2 : bytes.length ≤ totalChunksOf bytes.length C * C :=
      length_le_totalChunks_mul _ _ hC
    rw [← hlast, Nat.add_mul, Nat.one_mul] at h2
    have hmod : bytes.length % C = (bytes.length - i * C) % C := by
      conv_lhs => rw [← Nat.add_sub_cancel' (Nat.le_of_lt h1)]
      rw [show i * C = C * i from Nat.mul_comm i C, Nat.mul_add_mod]
    rw [if_pos hlast]
    by_cases hm : bytes.length - i * C = C
    · rw [hm] at hmod ⊢
      rw [hmod, Nat.mod_self, if_pos rfl]
      simp
    · have hlt : bytes.length - i * C < C := by omega
      rw [Nat.mod_eq_of_lt hlt] at hmod
      rw [hmod, if_neg (by omega)]
      exact Nat.min_eq_right (Nat.le_of_lt hlt)
  · have hi1 : i + 1 < totalChunksOf bytes.length C := by omega
    have h3 : (i + 1) * C < bytes.length := (lt_totalChunks_iff _ _ _ hC).mp hi1
    rw [Nat.add_mul, Nat.one_mul] at h3
    rw [if_neg hlast]
    exact Nat.min_eq_left (by omega)

/-- Witness for C3: a 600 KiB file with 256 KiB chunks gives exactly 3
chunk messages, the last payload being 88 KiB = 90112 bytes. -/
theorem C3_chunk_count_and_sizes_witness :
    ((0 : Nat) < 262144 ∧ totalChunksOf 614400 262144 = 3 ∧
      614400 % 262144 = 90112) ∧
    (sendChunks (List.replicate 614400 0) 262144).length = 3 ∧
    ∀ p ∈ sendChunks (List.replicate 614400 0) 262144,
      p.1 + 1 = 3 → p.2.length = 90112 := by
  have h := C3_chunk_count_and_sizes (List.replicate 614400 0) 262144 (by decide)
  have hlen : (List.replicate (614400 : Nat) (0 : Nat)).length = 614400 :=
    List.length_replicate 614400 0
  refine ⟨⟨by decide, by decide, by decide⟩, ?_, ?_⟩
  · rw [h.1, hlen]; decide
  · intro p hp hlast
    have hlenp := h.2.2 p hp
    rw [hlen] at hlenp
    rw [show totalChunksOf 614400 262144 = 3 from by decide] at hlenp
    rw [if_pos hlast, if_neg (by decide)] at hlenp
    exact hlenp

/-! ### C5: empty target set behaviour of `sendFile` -/

/-- C5. When the resolved target set is empty: a broadcast send (no
explicit subset) fails with the "no active connections" error and records
the file as pending; an explicit subset resolves by silently dropping ids
missing from the registry, and an entirely-unknown subset returns
silently, without error and without touching the state (in particular
without marking the file pending). -/
theorem C5_empty_target_set (st : TState) (file : FileData) :
    (st.connections = [] →
      sendFileStart st file none =
        ({ st with pendingFile := some file },
          .error "No active connections. File will be sent when clients connect.")) ∧
    (∀ ids : List String,
      (∀ id ∈ ids, lookupClient st.connections id = none) →
      resolveTargets st.connections (some ids) = [] ∧
      sendFileStart st file (some ids) = (st, .silentReturn)) := by
  constructor
  · intro h
    simp [sendFileStart, resolveTargets, h]
  · intro ids h
    have hres : resolveTargets st.connections (some ids) = [] := by
      simp only [resolveTargets]
      rw [List.filterMap_eq_nil_iff]
      exact h
    exact ⟨hres, by simp [sendFileStart, hres]⟩

/-- Witness for C5: with an empty registry, a broadcast send errors and
stores the pending file, while the unknown explicit subset `["b"]`
returns silently. -/
theorem C5_empty_target_set_witness :
    (initialState.connections = [] ∧
      (∀ id ∈ ["b"], lookupClient initialState.connections id = none)) ∧
    sendFileStart initialState ⟨"f", "t", [1]⟩ none =
      ({ initialState with pendingFile := some ⟨"f", "t", [1]⟩ },
        .error "No active connections. File will be sent when clients connect.") ∧
    sendFileStart initialState ⟨"f", "t", [1]⟩ (some ["b"]) =
      (initialState, .silentReturn) := by
  have h := C5_empty_target_set initialState ⟨"f", "t", [1]⟩
  exact ⟨⟨rfl, by decide⟩, h.1 rfl, (h.2 ["b"] (by decide)).2⟩

/-! ### C8: duplicate `complete` after reset is a no-op -/

/-- C8. Processing a duplicate `complete` message after the state has
already been assembled and reset (metadata null) leaves the state
unchanged and does not invoke the file-received callback again: no
re-emission and no partial assembly. -/
theorem C8_duplicate_complete_noop (st : TState) (peer : String) (now : Nat)
    (hmd : st.fileMetadata = none) :
    (handleIncomingData st peer .complete now).1 = st ∧
    filesReceived (handleIncomingData st peer .complete now).2 = [] := by
  simp only [handleIncomingData, assembleFile, hmd]
  (repeat' split) <;> simp

/-- Witness for C8: a fresh (reset) state ignores a stray `complete`. -/
theorem C8_duplicate_complete_noop_witness :
    initialState.fileMetadata = none ∧
    (handleIncomingData initialState "s" .complete 0).1 = initialState ∧
    filesReceived (handleIncomingData initialState "s" .complete 0).2 = [] :=
  ⟨rfl, C8_duplicate_complete_noop initialState "s" 0 rfl⟩

/-! ### C9: acks from unregistered peers are ignored -/

/-- C9. A `progress_ack` or `transfer_complete_ack` from a peer id
with no registered session is silently ignored: the state is unchanged,
no callback fires, and no completion one-shot is fulfilled. -/
theorem C9_unknown_peer_ack_ignored (st : TState) (peer : String)
    (tr now : Nat) (hpeer : lookupClient st.connections peer = none) :
    handleIncomingData st peer (.progressAck tr) now = (st, []) ∧
    handleIncomingData st peer .completeAck now = (st, []) := by
  constructor <;> simp [handleIncomingData, hpeer]

/-- Witness for C9: acks from the unknown peer `"x"` on an empty registry
change nothing. -/
theorem C9_unknown_peer_ack_ignored_witness :
    lookupClient initialState.connections "x" = none ∧
    handleIncomingData initialState "x" (.progressAck 5) 0 = (initialState, []) ∧
    handleIncomingData initialState "x" .completeAck 0 = (initialState, []) :=
  ⟨rfl, C9_unknown_peer_ack_ignored initialState "x" 5 0 rfl⟩

/-! ### C10: `destroy` empties the registry and clears the pending file -/

/-- C10. After `destroy()` the session registry is empty —
`getConnectedClients` returns the empty list — and the pending file is
cleared, so no previously pending broadcast can be auto-sent to a
later-connecting peer. -/
theorem C10_destroy_clears_registry_and_pending (st : TState) :
    getConnectedClients (destroy st) = [] ∧ (destroy st).pendingFile = none :=
  ⟨rfl, rfl⟩

/-! ### C6: the reassembly invariant

The handler stores `receivedChunks[data.index] = data.data` and increments
`receivedChunkCount` without any bounds or duplicate check, so the
invariant claimed for *every* message sequence fails (counterexample
below); it does hold for the sequences a conforming sender produces
(pairwise distinct chunk indices inside `[0, totalChunks)`). -/

/-- Refutation of C6 as stated: after `metadata` with `totalChunks = 1`,
two copies of a chunk carrying the out-of-range index `1` drive
`receivedCount` to `2 > totalChunks` and put a table entry at index `1`,
outside `[0, 1)`. -/
theorem C6_counterexample :
    (processTrace initialState
        [("s", .metadata ⟨"f", 1, "t", 1⟩, 0),
         ("s", .chunk 1 [9], 1), ("s", .chunk 1 [9], 2)]).1.fileMetadata =
      some ⟨"f", 1, "t", 1⟩ ∧
    (processTrace initialState
        [("s", .metadata ⟨"f", 1, "t", 1⟩, 0),
         ("s", .chunk 1 [9], 1), ("s", .chunk 1 [9], 2)]).1.receivedChunkCount = 2 ∧
    (processTrace initialState
        [("s", .metadata ⟨"f", 1, "t", 1⟩, 0),
         ("s", .chunk 1 [9], 1), ("s", .chunk 1 [9], 2)]).1.receivedChunks.getD 1 none =
      some [9] := by
  refine ⟨?_, ?_, ?_⟩ <;> decide

theorem foldl_jsSet_length_le (l : List (Nat × List Nat))
    (a : List (Option (List Nat))) (tc : Nat) (ha : a.length ≤ tc)
    (h : ∀ p ∈ l, p.1 < tc) :
    (l.foldl (fun acc p => jsSet acc p.1 p.2) a).length ≤ tc := by
  induction l generalizing a with
  | nil => exact ha
  | cons p rest ih =>
      simp only [List.foldl_cons]
      apply ih
      · rw [jsSet_length]
        have := h p (List.mem_cons_self _ _)
        omega
      · intro q hq
        exact h q (List.mem_cons_of_mem _ hq)

/-- C6, amended. For every message sequence consisting of a
`metadata` message followed by chunk messages whose indices are pairwise
distinct and all inside `[0, totalChunks)` — as produced by a conforming
sender — `receivedCount` never exceeds `metadata.totalChunks` and the
chunk table never holds an entry at an index outside `[0, totalChunks)`
(stated for every prefix `take n` of the chunk stream). -/
theorem C6_receiver_invariant_conforming (st : TState) (p0 : String)
    (md : FileMetadata) (t0 : Nat) (trace : List (String × Message × Nat))
    (l : List (Nat × List Nat))
    (htrace : trace.map (fun e => e.2.1) = l.map (fun p => Message.chunk p.1 p.2))
    (hnd : (l.map Prod.fst).Nodup)
    (hbound : ∀ p ∈ l, p.1 < md.totalChunks) (n : Nat) :
    (processTrace st ((p0, .metadata md, t0) :: trace.take n)).1.receivedChunkCount ≤
      md.totalChunks ∧
    ∀ j, md.totalChunks ≤ j →
      (processTrace st
        ((p0, .metadata md, t0) :: trace.take n)).1.receivedChunks.getD j none =
        none := by
  have htake : (trace.take n).map (fun e => e.2.1) =
      (l.take n).map (fun p => Message.chunk p.1 p.2) := by
    rw [List.map_take, htrace, ← List.map_take]
  simp only [processTrace]
  obtain ⟨h1, h2, h3, h5⟩ := processTrace_chunks (trace.take n) (l.take n)
    (handleIncomingData st p0 (.metadata md) t0).1 htake
  constructor
  · rw [h3]
    have hsub : (l.take n).map Prod.fst ⊆ List.range md.totalChunks := by
      intro i hi
      rw [List.mem_range]
      obtain ⟨p, hp, rfl⟩ := List.mem_map.mp hi
      exact hbound p (List.mem_of_mem_take hp)
    have hndt : ((l.take n).map Prod.fst).Nodup := by
      rw [List.map_take]
      exact hnd.sublist (List.take_sublist _ _)
    have hcount := (List.subperm_of_subset hndt hsub).length_le
    simp only [List.length_map, List.length_range] at hcount
    have hzero : (handleIncomingData st p0 (.metadata md) t0).1.receivedChunkCount = 0 :=
      rfl
    omega
  · intro j hj
    rw [h2]
    have hrc : (handleIncomingData st p0 (.metadata md) t0).1.receivedChunks = [] := rfl
    rw [hrc]
    have hlen := foldl_jsSet_length_le (l.take n) [] md.totalChunks (by simp)
      (fun p hp => hbound p (List.mem_of_mem_take hp))
    rw [List.getD_eq_getElem?_getD, List.getElem?_eq_none (by omega)]
    rfl

/-- Witness for the amended C6: a conforming two-chunk stream with
`totalChunks = 2`, delivered out of order, keeps the invariant. -/
theorem C6_receiver_invariant_conforming_witness :
    (([((1 : Nat), [(9 : Nat)]), (0, [8])].map Prod.fst).Nodup ∧
      (∀ p ∈ [((1 : Nat), [(9 : Nat)]), (0, [8])],
        p.1 < (⟨"f", 3, "t", 2⟩ : FileMetadata).totalChunks)) ∧
    ((processTrace initialState
        (("s", .metadata ⟨"f", 3, "t", 2⟩, 0) ::
          ([("s", .chunk 1 [9], 1), ("s", .chunk 0 [8], 2)].take 2))).1.receivedChunkCount ≤
      (⟨"f", 3, "t", 2⟩ : FileMetadata).totalChunks ∧
    ∀ j, (⟨"f", 3, "t", 2⟩ : FileMetadata).totalChunks ≤ j →
      (processTrace initialState
        (("s", .metadata ⟨"f", 3, "t", 2⟩, 0) ::
          ([("s", .chunk 1 [9], 1), ("s", .chunk 0 [8], 2)].take 2))).1.receivedChunks.getD
        j none = none) :=
  ⟨⟨by decide, by decide⟩,
    C6_receiver_invariant_conforming initialState "s" ⟨"f", 3, "t", 2⟩ 0
      [("s", .chunk 1 [9], 1), ("s", .chunk 0 [8], 2)] [(1, [9]), (0, [8])]
      (by decide) (by decide) (by decide) 2⟩

/-! ### C7: the progress record emitted on a chunk

The code computes `percentage` as `receivedCount / totalChunks * 100`
(the chunk-count ratio, unclamped), not as the clamped byte ratio
`transferred / total * 100` the claim states. -/

/-- A receiver state mid-transfer: metadata for a file of
`CHUNK_SIZE + 1` bytes in 2 chunks, no chunk received yet. -/
def chunkState7 : TState :=
  { initialState with fileMetadata := some ⟨"f", 262145, "", 2⟩ }

/-- Refutation of C7 as stated: on the first chunk of a
`262145`-byte file in 2 chunks the receiver emits `percentage = 50`
(chunk ratio), while the claimed clamped byte ratio is
`262144/262145*100 ≠ 50`. -/
theorem C7_counterexample :
    (handleIncomingData chunkState7 "s" (.chunk 0 [0]) 100).2 =
      [Event.progressChange ""
        { transferred := 262144, total := 262145, percentage := 50,
          speed := 2621440 }] ∧
    ¬ ((50 : ℚ) = min 100 (max 0 ((262144 : ℚ) / (262145 : ℚ) * 100))) := by
  constructor
  · simp only [handleIncomingData, chunkState7, initialState]
    norm_num [CHUNK_SIZE, jsSet]
  · intro h
    rw [max_eq_right (by norm_num : (0 : ℚ) ≤ 262144 / 262145 * 100),
      min_eq_right (by norm_num : (262144 : ℚ) / 262145 * 100 ≤ 100)] at h
    norm_num at h

/-- C7, amended. Every `TransferProgress` the receiver emits on a
chunk message has `transferred = receivedCount * CHUNK_SIZE` clamped to
`metadata.size` and `total = metadata.size`, but its `percentage` is
`receivedCount / totalChunks * 100` — the chunk-count ratio, unclamped —
rather than the clamped byte ratio. -/
theorem C7_progress_fields (st : TState) (peer : String) (i : Nat)
    (d : List Nat) (now : Nat) (md : FileMetadata)
    (hmd : st.fileMetadata = some md) :
    ∀ c p, Event.progressChange c p ∈ (handleIncomingData st peer (.chunk i d) now).2 →
      p.transferred = min ((st.receivedChunkCount + 1) * CHUNK_SIZE) md.size ∧
      p.total = md.size ∧
      p.percentage =
        ((st.receivedChunkCount + 1 : Nat) : ℚ) / (md.totalChunks : ℚ) * 100 := by
  intro c p hp
  simp only [handleIncomingData, hmd] at hp
  rcases List.mem_append.mp hp with hp1 | hp1
  · split at hp1
    · simp only [List.mem_singleton, Event.progressChange.injEq] at hp1
      obtain ⟨-, rfl⟩ := hp1
      exact ⟨rfl, rfl, rfl⟩
    · simp at hp1
  · (repeat' split at hp1) <;> simp at hp1

/-- Witness for the amended C7: the concrete emission of
`chunkState7` on its first chunk satisfies the amended field laws. -/
theorem C7_progress_fields_witness :
    chunkState7.fileMetadata = some ⟨"f", 262145, "", 2⟩ ∧
    ∀ c p, Event.progressChange c p ∈
        (handleIncomingData chunkState7 "s" (.chunk 0 [0]) 100).2 →
      p.transferred = min ((chunkState7.receivedChunkCount + 1) * CHUNK_SIZE) 262145 ∧
      p.total = 262145 ∧
      p.percentage =
        ((chunkState7.receivedChunkCount + 1 : Nat) : ℚ) / ((2 : Nat) : ℚ) * 100 :=
  ⟨rfl, C7_progress_fields chunkState7 "s" 0 [0] 100 ⟨"f", 262145, "", 2⟩ rfl⟩

/-! ### C4: backpressure gating of the chunk loop

The loop blocks while the `bufferedAmount` of some open target exceeds
`MAX_BUFFERED_AMOUNT` and resumes as soon as no reading exceeds it — at
a reading exactly equal to the 16 MiB mark a chunk is sent even though
the buffered count never dropped strictly below the mark, refuting the
the claim wording "until that count drops below the mark" as stated. -/

theorem chunkLoop_all_blocked (bytes : List Nat) (C : Nat)
    (targets : List ClientInfo) (rs : List (String → Option Nat))
    (offset chunkIndex : Nat) (hoff : offset < bytes.length)
    (hall : ∀ r ∈ rs, canSendStep targets r = false) :
    chunkLoop bytes C targets rs offset chunkIndex =
      rs.map (fun _ => ChunkAction.sleep 5) := by
  induction rs with
  | nil => rfl
  | cons r rest ih =>
      rw [chunkLoop, if_pos hoff, if_neg (by
        rw [hall r (List.mem_cons_self _ _)]; simp)]
      rw [ih (fun r' h' => hall r' (List.mem_cons_of_mem _ h'))]
      rfl

/-- C4, amended. While the buffered byte count of any open target exceeds
the 16 MiB high-water mark, no chunk message is sent to any target and
the loop re-polls at the fixed 5 ms interval; a chunk is sent exactly
when no reading of an open target exceeds the mark (so sending resumes at a
count equal to the mark, not strictly below it). -/
theorem C4_backpressure_gates_sending (bytes : List Nat) (C : Nat)
    (targets : List ClientInfo) (r : String → Option Nat)
    (rs : List (String → Option Nat)) (offset chunkIndex : Nat)
    (hoff : offset < bytes.length) :
    (canSendStep targets r = false →
      chunkLoop bytes C targets (r :: rs) offset chunkIndex =
        ChunkAction.sleep 5 :: chunkLoop bytes C targets rs offset chunkIndex) ∧
    (canSendStep targets r = true →
      chunkLoop bytes C targets (r :: rs) offset chunkIndex =
        ChunkAction.send chunkIndex ((bytes.drop offset).take C)
            ((targets.filter (fun c => c.connOpen)).map (fun c => c.id)) ::
          chunkLoop bytes C targets rs (offset + C) (chunkIndex + 1)) ∧
    ((∀ q ∈ r :: rs, canSendStep targets q = false) →
      chunkLoop bytes C targets (r :: rs) offset chunkIndex =
        (r :: rs).map (fun _ => ChunkAction.sleep 5)) := by
  refine ⟨?_, ?_, ?_⟩
  · intro hb
    rw [chunkLoop, if_pos hoff, if_neg (by rw [hb]; simp)]
  · intro hb
    rw [chunkLoop, if_pos hoff, if_pos hb]
  · intro hall
    exact chunkLoop_all_blocked bytes C targets (r :: rs) offset chunkIndex hoff hall

/-- A single open target used by the C4 scenarios. -/
def tgt4 : ClientInfo :=
  { id := "r", connOpen := true,
    progress := { transferred := 0, total := 0, percentage := 0, speed := 0 },
    startTime := 0, hasResolve := false, resolved := false }

/-- A buffered-amount reading one byte above the high-water mark. -/
def reading4a : String → Option Nat := fun _ => some (MAX_BUFFERED_AMOUNT + 1)

/-- A buffered-amount reading exactly at the high-water mark. -/
def reading4b : String → Option Nat := fun _ => some MAX_BUFFERED_AMOUNT

/-- Refutation of C4 as stated: with readings `mark + 1` then exactly
`mark`, the loop sleeps once and then sends a chunk, although the
buffered count never dropped strictly below the mark. -/
theorem C4_counterexample :
    reading4a "r" = some (MAX_BUFFERED_AMOUNT + 1) ∧
    reading4b "r" = some MAX_BUFFERED_AMOUNT ∧
    chunkLoop [7] 1 [tgt4] [reading4a, reading4b] 0 0 =
      [ChunkAction.sleep 5, ChunkAction.send 0 [7] ["r"]] := by
  refine ⟨rfl, rfl, ?_⟩
  decide

/-- Witness for the amended C4: at a blocked reading the loop emits a
5 ms sleep and no chunk; at a permitted reading it sends the slice. -/
theorem C4_backpressure_gates_sending_witness :
    (0 < ([7] : List Nat).length) ∧
    ((canSendStep [tgt4] reading4a = false →
      chunkLoop [7] 1 [tgt4] [reading4a] 0 0 =
        ChunkAction.sleep 5 :: chunkLoop [7] 1 [tgt4] [] 0 0) ∧
    (canSendStep [tgt4] reading4a = true →
      chunkLoop [7] 1 [tgt4] [reading4a] 0 0 =
        ChunkAction.send 0 (([7] : List Nat).drop 0 |>.take 1)
            (([tgt4].filter (fun c => c.connOpen)).map (fun c => c.id)) ::
          chunkLoop [7] 1 [tgt4] [] (0 + 1) (0 + 1)) ∧
    ((∀ q ∈ [reading4a], canSendStep [tgt4] q = false) →
      chunkLoop [7] 1 [tgt4] [reading4a] 0 0 =
        [reading4a].map (fun _ => ChunkAction.sleep 5))) :=
  ⟨by decide, C4_backpressure_gates_sending [7] 1 [tgt4] reading4a [] 0 0 (by decide)⟩

/-! ### C2: fan-out completion requires an ack from every target -/

theorem lookupClient_updateClient_ne (conns : List ClientInfo) (p t : String)
    (c' : ClientInfo) (hc' : c'.id = p) (hpt : p ≠ t) :
    lookupClient (updateClient conns p c') t = lookupClient conns t := by
  induction conns with
  | nil => rfl
  | cons d ds ih =>
      simp only [updateClient, List.map_cons, lookupClient, List.find?]
      by_cases hd : d.id = p
      · rw [if_pos (by simp [hd])]
        have h1 : (c'.id == t) = false := by
          simp [hc']
          exact hpt
        have h2 : (d.id == t) = false := by
          simp [hd]
          exact hpt
        rw [h1, h2]
        exact ih
      · rw [if_neg (by simp [hd])]
        cases hdt : d.id == t
        · exact ih
        · rfl

theorem lookupClient_updateClient_self (conns : List ClientInfo) (p : String)
    (c c' : ClientInfo) (hc : lookupClient conns p = some c) (hc' : c'.id = p) :
    lookupClient (updateClient conns p c') p = some c' := by
  induction conns with
  | nil => simp [lookupClient] at hc
  | cons d ds ih =>
      simp only [updateClient, List.map_cons, lookupClient, List.find?]
      by_cases hd : d.id = p
      · rw [if_pos (by simp [hd]), show (c'.id == p) = true by simp [hc']]
      · rw [if_neg (by simp [hd]), show (d.id == p) = false by simp [hd]]
        apply ih
        simp only [lookupClient, List.find?, show (d.id == p) = false by simp [hd]] at hc
        exact hc

/-- Only a `transfer_complete_ack` from the peer itself can fulfil that
completion one-shot of that peer: any other message leaves its `resolved` flag
unchanged. -/
theorem clientResolved_handle (st : TState) (p : String) (msg : Message)
    (now : Nat) (t : String) (hmsg : p = t → msg ≠ Message.completeAck) :
    clientResolved (handleIncomingData st p msg now).1.connections t =
      clientResolved st.connections t := by
  cases msg with
  | metadata md => rfl
  | chunk i d =>
      obtain ⟨-, -, -, h4, -⟩ := handleIncomingData_chunk st p i d now
      rw [clientResolved, h4, ← clientResolved]
  | complete =>
      rcases hmd : st.fileMetadata with _ | md <;>
        simp [handleIncomingData, assembleFile, hmd, clientResolved]
  | progressAck tr =>
      rcases hlk : lookupClient st.connections p with _ | c
      · simp [handleIncomingData, hlk]
      · have hcid : c.id = p := by
          have := List.find?_some hlk
          simpa using this
        simp only [handleIncomingData, hlk]
        by_cases hpt : p = t
        · subst hpt
          rw [clientResolved, lookupClient_updateClient_self st.connections p c _ hlk ?hid,
            clientResolved, hlk]
          case hid => exact hcid
        · rw [clientResolved, lookupClient_updateClient_ne st.connections p t _ ?hid hpt,
            ← clientResolved]
          case hid => exact hcid
  | completeAck =>
      have hpt : p ≠ t := fun h => (hmsg h) rfl
      rcases hlk : lookupClient st.connections p with _ | c
      · simp [handleIncomingData, hlk]
      · have hcid : c.id = p := by
          have := List.find?_some hlk
          simpa using this
        simp only [handleIncomingData, hlk]
        by_cases hres : c.hasResolve
        · rw [if_pos (by simp [hres])]
          rw [clientResolved, lookupClient_updateClient_ne st.connections p t _ ?hid hpt,
            ← clientResolved]
          case hid => exact hcid
        · rw [if_neg (by simp [hres])]

theorem clientResolved_processTrace (st : TState)
    (trace : List (String × Message × Nat)) (t : String)
    (htr : ∀ e ∈ trace, e.1 = t → e.2.1 ≠ Message.completeAck) :
    clientResolved (processTrace st trace).1.connections t =
      clientResolved st.connections t := by
  induction trace generalizing st with
  | nil => rfl
  | cons e rest ih =>
      obtain ⟨p, m, tm⟩ := e
      simp only [processTrace]
      rw [ih _ (fun e' h' => htr e' (List.mem_cons_of_mem _ h')),
        clientResolved_handle st p m tm t
          (fun hp => htr (p, m, tm) (List.mem_cons_self _ _) hp)]

theorem clientResolved_armTargets (conns : List ClientInfo) (ids : List String)
    (t : String) (ht : t ∈ ids) :
    clientResolved (armTargets conns ids) t = false := by
  induction conns with
  | nil => rfl
  | cons c cs ih =>
      simp only [armTargets, List.map_cons]
      by_cases hid : c.id = t
      · have hcont : ids.contains c.id = true := by
          rw [hid]
          exact List.elem_eq_true_of_mem ht
        rw [if_pos hcont]
        simp only [clientResolved, lookupClient, List.find?]
        rw [show (({ c with hasResolve := true, resolved := false } : ClientInfo).id == t) =
          true by simp [hid]]
      · have hhead : ((if ids.contains c.id = true then
            ({ c with hasResolve := true, resolved := false } : ClientInfo) else c).id == t) =
            false := by
          split <;> simp [hid]
        simp only [clientResolved, lookupClient, List.find?]
        rw [hhead]
        exact ih

/-- C2. After `sendFile` installs one completion one-shot per target,
its final `await Promise.all` is not resolved as long as any targeted
receiver has not sent `transfer_complete_ack`: processing any incoming
message trace containing no `completeAck` from target `t` leaves the
fan-out unresolved (so acks from only N-1 of N targets keep the call
pending). -/
theorem C2_fanout_requires_all_acks (st : TState) (ids : List String)
    (t : String) (ht : t ∈ ids) (trace : List (String × Message × Nat))
    (htr : ∀ e ∈ trace, e.1 = t → e.2.1 ≠ Message.completeAck) :
    sendFileResolved
      (processTrace { st with connections := armTargets st.connections ids }
        trace).1.connections ids = false := by
  have h2 := clientResolved_processTrace
    { st with connections := armTargets st.connections ids } trace t htr
  have h1 : clientResolved (armTargets st.connections ids) t = false :=
    clientResolved_armTargets _ _ _ ht
  have hfalse : clientResolved
      (processTrace { st with connections := armTargets st.connections ids }
        trace).1.connections t = false := by
    rw [h2]
    exact h1
  cases hres : sendFileResolved
      (processTrace { st with connections := armTargets st.connections ids }
        trace).1.connections ids
  · rfl
  · exfalso
    have := List.all_eq_true.mp hres t ht
    rw [hfalse] at this
    cases this

/-- The two registered receivers of the C2 witness scenario. -/
def client2a : ClientInfo :=
  { id := "a", connOpen := true,
    progress := { transferred := 0, total := 0, percentage := 0, speed := 0 },
    startTime := 0, hasResolve := false, resolved := false }

/-- Second receiver of the C2 witness scenario. -/
def client2b : ClientInfo :=
  { id := "b", connOpen := true,
    progress := { transferred := 0, total := 0, percentage := 0, speed := 0 },
    startTime := 0, hasResolve := false, resolved := false }

/-- Witness for C2: with two targets armed and only `"a"` acknowledging,
the fan-out stays unresolved. -/
theorem C2_fanout_requires_all_acks_witness :
    ("b" ∈ ["a", "b"] ∧
      (∀ e ∈ [(("a" : String), (Message.completeAck, (5 : Nat)))],
        e.1 = "b" → e.2.1 ≠ Message.completeAck)) ∧
    sendFileResolved
      (processTrace
        { initialState with
            connections := armTargets [client2a, client2b] ["a", "b"] }
        [("a", Message.completeAck, 5)]).1.connections ["a", "b"] = false := by
  refine ⟨⟨by decide, by decide⟩, ?_⟩
  exact C2_fanout_requires_all_acks
    { initialState with connections := [client2a, client2b] } ["a", "b"] "b"
    (by decide) [("a", Message.completeAck, 5)] (by decide)

end P2P

